import Mathlib

/-!
Verification of the issue-tracking plugin fragment (OpenHands fork).

Strings are modelled as lists of characters.  The Python regular
expressions used by the source restrict, on the inputs of interest, to
ASCII character classes; the embedding models the ASCII fragment of
Python's character classes (for example, the Unicode case-folding
special cases of IGNORECASE and the non-ASCII members of the \s and \d
classes are outside the model).

Source files embedded here:
  openhands/events/observation/issues.py   (data model and the text
    utility functions clean_text, extract_ticket_number,
    extract_all_ticket_numbers, extract_ticket_ids, extract_github_info)
  openhands/events/action/issues.py        (IssuesQueryAction)
  openhands/runtime/plugins/issues/__init__.py (IssuesPlugin, DUMMY_JIRA_ISSUE)
-/

/-! ## Character classes (ASCII fragments of the regex classes) -/

/-- ASCII fragment of the regex class \s: the characters collapsed by
clean_text's whitespace substitution and stripped by str.strip. -/
def isWs (c : Char) : Bool :=
  c = ' ' || c = '\t' || c = '\n' || c = '\r' || c = '\x0b' || c = '\x0c'

/-- The class [A-Z] under re.IGNORECASE (ASCII fragment). -/
def isAsciiLetter (c : Char) : Bool :=
  ('A' ≤ c && c ≤ 'Z') || ('a' ≤ c && c ≤ 'z')

/-- The class \d (ASCII fragment). -/
def isAsciiDigit (c : Char) : Bool :=
  '0' ≤ c && c ≤ '9'

/-- The class [a-f0-9] under re.IGNORECASE. -/
def isHexDigitCI (c : Char) : Bool :=
  ('0' ≤ c && c ≤ '9') || ('a' ≤ c && c ≤ 'f') || ('A' ≤ c && c ≤ 'F')

/-- ASCII lower-casing, used to model case-insensitive literal matching. -/
def lowerChar (c : Char) : Char :=
  if 'A' ≤ c && c ≤ 'Z' then Char.ofNat (c.toNat + 32) else c

/-! ## clean_text

Python source (issues.py):
  def clean_text(text: str) -> str:
      if not text:
          return ''
      text = re.sub(r'\s+', ' ', text).strip()
      text = re.sub(r'<[^>]+>', '', text)
      text = re.sub(r'\x7b.*?\x7d', '', text)   -- braces written escaped here
      return text.strip()
-/

/-- Model of re.sub(r'\s+', ' ', text): each maximal run of whitespace
becomes a single space. -/
def collapseWs : List Char → List Char
  | [] => []
  | [c] => [if isWs c then ' ' else c]
  | c :: d :: rest =>
    if isWs c && isWs d then collapseWs (d :: rest)
    else (if isWs c then ' ' else c) :: collapseWs (d :: rest)

/-- Model of str.strip (ASCII whitespace). -/
def stripL (l : List Char) : List Char :=
  (((l.dropWhile isWs).reverse.dropWhile isWs)).reverse

/-- Suffix of the list strictly after the first occurrence of x, if any. -/
def afterFirst (x : Char) : List Char → Option (List Char)
  | [] => none
  | c :: rest => if c = x then some rest else afterFirst x rest

/-- Rest of a tag match after its opening <: at least one character
other than >, then the first >.  Returns the suffix after that >. -/
def tagTail : List Char → Option (List Char)
  | [] => none
  | d :: rs => if d = '>' then none else afterFirst '>' rs

/-- One attempted match of the pattern <[^>]+> at the head of the list:
on success, the suffix after the matched span.  The match runs from the
leading < through the first later >, provided at least one character
stands between them. -/
def tagStep : List Char → Option (List Char)
  | [] => none
  | c :: rest => if c = '<' then tagTail rest else none

/-- One attempted match of the non-greedy brace pattern at the head of
the list: from a leading left brace through the first right brace. -/
def braceStep : List Char → Option (List Char)
  | [] => none
  | c :: rest => if c = '\x7b' then afterFirst '\x7d' rest else none

/-- Engine of re.sub(pattern, '', text) for a pattern described by a
step function: scan left to right, delete each leftmost non-overlapping
match, keep other characters.  Structural recursion on a fuel bound so
that the kernel can evaluate it; the fuel never runs out when it starts
at the length of the list and the step consumes at least one character. -/
def reSubEmptyGo (step : List Char → Option (List Char)) : Nat → List Char → List Char
  | 0, l => l
  | _ + 1, [] => []
  | fuel + 1, c :: rest =>
    match step (c :: rest) with
    | some s => reSubEmptyGo step fuel s
    | none => c :: reSubEmptyGo step fuel rest

/-- re.sub(pattern, '', text) for the step function of the pattern. -/
def reSubEmpty (step : List Char → Option (List Char)) (l : List Char) : List Char :=
  reSubEmptyGo step l.length l

/-- Model of re.sub(r'<[^>]+>', '', text). -/
def removeTags (l : List Char) : List Char :=
  reSubEmpty tagStep l

/-- Model of the brace-fragment substitution in clean_text. -/
def removeBraces (l : List Char) : List Char :=
  reSubEmpty braceStep l

/-- Model of clean_text on a string.  The empty list plays the role of
the falsy empty string. -/
def clean_text (l : List Char) : List Char :=
  if l = [] then []
  else stripL (removeBraces (removeTags (stripL (collapseWs l))))

/-- Model of calling clean_text on a value that may be None: Python's
truthiness test sends None down the same early return as the empty
string. -/
def clean_text_opt : Option (List Char) → List Char
  | none => []
  | some l => clean_text l

/-! ## Ticket extraction

Python source (issues.py):
  def extract_ticket_number(text: str) -> str:
      match = re.search(r'[A-Z]+-(\d+)', text, flags=re.IGNORECASE)
      return match.group(1) if match else ''

  def extract_all_ticket_numbers(text: str) -> List[str]:
      tickets = re.findall(r'([A-Z]+-\d+)', text, flags=re.IGNORECASE)
      return list({extract_ticket_number(t) for t in tickets if extract_ticket_number(t)})

  def extract_ticket_ids(text: str) -> List[str]:
      return extract_all_ticket_numbers(text)
-/

/-- A match of the ticket pattern: the whole matched text and the
digits captured by group 1. -/
structure TicketMatch where
  full : List Char
  digits : List Char
deriving DecidableEq

/-- One attempted match of [A-Z]+-(\d+) (IGNORECASE) at the head of the
list: a maximal nonempty run of letters, a dash, then a maximal nonempty
run of digits.  On success, the match together with the suffix after it. -/
def matchTicketAt (l : List Char) : Option (TicketMatch × List Char) :=
  let letters := l.takeWhile isAsciiLetter
  if letters.isEmpty then none
  else
    match l.dropWhile isAsciiLetter with
    | [] => none
    | c :: r2 =>
      if c = '-' then
        let ds := r2.takeWhile isAsciiDigit
        if ds.isEmpty then none
        else some (⟨letters ++ '-' :: ds, ds⟩, r2.dropWhile isAsciiDigit)
      else none

/-- Engine of re.findall: scan left to right, collect the leftmost
non-overlapping matches produced by the step function.  Fuelled
structural recursion, as for reSubEmptyGo. -/
def reFindGo {α : Type} (step : List Char → Option (α × List Char)) :
    Nat → List Char → List α
  | 0, _ => []
  | _ + 1, [] => []
  | fuel + 1, c :: rest =>
    match step (c :: rest) with
    | some (g, s) => g :: reFindGo step fuel s
    | none => reFindGo step fuel rest

/-- re.findall for the step function of a pattern. -/
def reFind {α : Type} (step : List Char → Option (α × List Char)) (l : List Char) : List α :=
  reFindGo step l.length l

/-- Model of re.findall(r'([A-Z]+-\d+)', text, re.IGNORECASE). -/
def findTickets (l : List Char) : List TicketMatch :=
  reFind matchTicketAt l

/-- Model of extract_ticket_number: group 1 of the first match of
[A-Z]+-(\d+), or the empty string when the text has no match. -/
def extract_ticket_number : List Char → List Char
  | [] => []
  | c :: rest =>
    match matchTicketAt (c :: rest) with
    | some (m, _) => m.digits
    | none => extract_ticket_number rest

/-- Model of extract_all_ticket_numbers.  The Python set comprehension
is modelled as deduplication keeping first occurrences. -/
def extract_all_ticket_numbers (l : List Char) : List (List Char) :=
  (((findTickets l).map (fun t => extract_ticket_number t.full)).filter
    (fun d => !d.isEmpty)).dedup

/-- Model of extract_ticket_ids, an alias of extract_all_ticket_numbers. -/
def extract_ticket_ids (l : List Char) : List (List Char) :=
  extract_all_ticket_numbers l

/-! ## GitHub reference extraction

Python source (issues.py), with the repository slug escaped into the
pattern by re.escape and both patterns compiled with re.IGNORECASE:

  commit_pattern:
    \[[^|]+\|(https://github\.com/REPO/commit/([a-f0-9]{7,40}))\]
    |(https://github\.com/REPO/commit/([a-f0-9]{7})[a-f0-9]*)
  pr_pattern:
    \[[^|]+\|(https://github\.com/REPO/pull/\d+)\]
    |(https://github\.com/REPO/pull/\d+)

  commit_matches = re.findall(commit_pattern, text, flags=re.IGNORECASE)
  commits = []
  for m in commit_matches:
      commit_id_full = m[1] or m[3]
      if commit_id_full:
          commits.append(commit_id_full[:7])
  pr_matches = re.findall(pr_pattern, text, flags=re.IGNORECASE)
  prs = [m[0] or m[1] for m in pr_matches if (m[0] or m[1])]
  return {'commits': list(set(commits)), 'prs': list(set(prs))}
-/

/-- Case-insensitive match of a literal pattern at the head of the
list; on success, the suffix after the literal. -/
def matchLit : List Char → List Char → Option (List Char)
  | [], l => some l
  | _ :: _, [] => none
  | p :: ps, c :: cs => if lowerChar p = lowerChar c then matchLit ps cs else none

/-- The literal https://github.com/ opening both URL patterns. -/
def urlStart : List Char := "https://github.com/".data

/-- The literal part of the commit URL pattern for a repository slug. -/
def commitUrlBase (repo : List Char) : List Char :=
  urlStart ++ repo ++ "/commit/".data

/-- The literal part of the pull-request URL pattern for a repository slug. -/
def pullUrlBase (repo : List Char) : List Char :=
  urlStart ++ repo ++ "/pull/".data

/-- Split at the first '|': the characters before it and the suffix
after it.  Models the deterministic behaviour of the greedy [^|]+
followed by the literal bar. -/
def splitAtFirstBar : List Char → Option (List Char × List Char)
  | [] => none
  | c :: rest =>
    if c = '|' then some ([], rest)
    else
      match splitAtFirstBar rest with
      | some (b, a) => some (c :: b, a)
      | none => none

/-- First alternative of the commit pattern at the head of the list:
a bracketed Jira-style link whose URL part is a commit URL with 7 to 40
hex characters, closed by a right bracket.  Returns group 2 (the full
hex run, original case) and the suffix after the match. -/
def matchCommitA (repo : List Char) (l : List Char) : Option (List Char × List Char) :=
  match l with
  | [] => none
  | c :: rest =>
    if c = '[' then
      match splitAtFirstBar rest with
      | none => none
      | some (before, after) =>
        if before.isEmpty then none
        else
          match matchLit (commitUrlBase repo) after with
          | none => none
          | some r2 =>
            let hex := r2.takeWhile isHexDigitCI
            if 7 ≤ hex.length && hex.length ≤ 40 then
              match r2.dropWhile isHexDigitCI with
              | ']' :: rest4 => some (hex, rest4)
              | _ => none
            else none
    else none

/-- Second alternative of the commit pattern at the head of the list:
a bare commit URL followed by at least 7 hex characters.  Returns
group 4 (the first 7 hex characters, original case) and the suffix
after the whole hex run. -/
def matchCommitB (repo : List Char) (l : List Char) : Option (List Char × List Char) :=
  match matchLit (commitUrlBase repo) l with
  | none => none
  | some r2 =>
    let hex := r2.takeWhile isHexDigitCI
    if 7 ≤ hex.length then some (hex.take 7, r2.dropWhile isHexDigitCI)
    else none

/-- The commit pattern: the first alternative is tried before the
second, as in the regex alternation.  The returned group is the value
the source reads as m[1] or m[3]. -/
def matchCommit (repo : List Char) (l : List Char) : Option (List Char × List Char) :=
  match matchCommitA repo l with
  | some r => some r
  | none => matchCommitB repo l

/-- First alternative of the PR pattern: a bracketed link whose URL
part is a pull URL with at least one digit, closed by a right bracket.
Returns group 1 (the URL as it stands in the input) and the suffix. -/
def matchPrA (repo : List Char) (l : List Char) : Option (List Char × List Char) :=
  match l with
  | [] => none
  | c :: rest =>
    if c = '[' then
      match splitAtFirstBar rest with
      | none => none
      | some (before, after) =>
        if before.isEmpty then none
        else
          match matchLit (pullUrlBase repo) after with
          | none => none
          | some r2 =>
            let ds := r2.takeWhile isAsciiDigit
            if ds.isEmpty then none
            else
              match r2.dropWhile isAsciiDigit with
              | ']' :: rest4 => some (after.take (pullUrlBase repo).length ++ ds, rest4)
              | _ => none
    else none

/-- Second alternative of the PR pattern: a bare pull URL with at least
one digit.  Returns group 2 and the suffix after the digit run. -/
def matchPrB (repo : List Char) (l : List Char) : Option (List Char × List Char) :=
  match matchLit (pullUrlBase repo) l with
  | none => none
  | some r2 =>
    let ds := r2.takeWhile isAsciiDigit
    if ds.isEmpty then none
    else some (l.take (pullUrlBase repo).length ++ ds, r2.dropWhile isAsciiDigit)

/-- The PR pattern: first alternative before the second.  The returned
group is the value the source reads as m[0] or m[1]. -/
def matchPr (repo : List Char) (l : List Char) : Option (List Char × List Char) :=
  match matchPrA repo l with
  | some r => some r
  | none => matchPrB repo l

/-- Model of re.findall(commit_pattern, text, re.IGNORECASE), already
projected to the group the source uses. -/
def findCommits (repo : List Char) (l : List Char) : List (List Char) :=
  reFind (matchCommit repo) l

/-- Model of re.findall(pr_pattern, text, re.IGNORECASE), already
projected to the group the source uses. -/
def findPrs (repo : List Char) (l : List Char) : List (List Char) :=
  reFind (matchPr repo) l

/-- The dictionary returned by extract_github_info. -/
structure GithubInfo where
  commits : List (List Char)
  prs : List (List Char)
deriving DecidableEq

/-- Model of extract_github_info(text, github_repo).  list(set(...)) is
modelled as deduplication keeping first occurrences. -/
def extract_github_info (text : List Char) (repo : List Char) : GithubInfo :=
  { commits := (((findCommits repo text).filter (fun g => !g.isEmpty)).map
      (fun g => g.take 7)).dedup
    prs := ((findPrs repo text).filter (fun u => !u.isEmpty)).dedup }

/-- Tail test of a commit URL: at least 7 hex characters follow the
literal part. -/
def commitTail (r : List Char) : Bool :=
  decide (7 ≤ (r.takeWhile isHexDigitCI).length)

/-- Tail test of a pull URL: at least one digit follows the literal part. -/
def prTail (r : List Char) : Bool :=
  !(r.takeWhile isAsciiDigit).isEmpty

/-- A URL with the given literal part and tail test starts at the head
of the list. -/
def hasUrlAt (base : List Char) (tailOk : List Char → Bool) (l : List Char) : Bool :=
  match matchLit base l with
  | some r => tailOk r
  | none => false

/-- A URL with the given literal part and tail test occurs somewhere in
the list (case-insensitively). -/
def hasUrl (base : List Char) (tailOk : List Char → Bool) : List Char → Bool
  | [] => false
  | c :: rest => hasUrlAt base tailOk (c :: rest) || hasUrl base tailOk rest

/-- The text contains a commit URL of the repository. -/
def hasCommitUrl (repo : List Char) (text : List Char) : Bool :=
  hasUrl (commitUrlBase repo) commitTail text

/-- The text contains a pull-request URL of the repository. -/
def hasPrUrl (repo : List Char) (text : List Char) : Bool :=
  hasUrl (pullUrlBase repo) prTail text

/-! ## Issue data model

Python source (issues.py): dataclasses Issue, JiraIssue, GithubIssue,
GithubPR, GithubCommit and the observation wrapper.  JiraIssue,
GithubPR define only a string rendering; GithubIssue and GithubCommit
redeclare id and add nothing else, so all variants carry exactly the
base fields.  Record field values are modelled as Lean strings.
-/

/-- The base dataclass Issue. -/
structure Issue where
  id : String
  source : String
  title : String
  created : String
  description : String
  status : List String := []
  comments : List String := []
deriving DecidableEq

/-- The dataclass JiraIssue: the base fields, no additions. -/
structure JiraIssue where
  id : String
  source : String
  title : String
  created : String
  description : String
  status : List String := []
  comments : List String := []
deriving DecidableEq

/-- The dataclass GithubIssue: the base fields (id redeclared), no additions. -/
structure GithubIssue where
  id : String
  source : String
  title : String
  created : String
  description : String
  status : List String := []
  comments : List String := []
deriving DecidableEq

/-- The dataclass GithubPR: the base fields, no additions. -/
structure GithubPR where
  id : String
  source : String
  title : String
  created : String
  description : String
  status : List String := []
  comments : List String := []
deriving DecidableEq

/-- The dataclass GithubCommit: the base fields (id redeclared), no additions. -/
structure GithubCommit where
  id : String
  source : String
  title : String
  created : String
  description : String
  status : List String := []
  comments : List String := []
deriving DecidableEq

/-- The attribute names of the dataclass Issue, in declaration order. -/
def Issue.fieldNames : List String :=
  ["id", "source", "title", "created", "description", "status", "comments"]

/-- The attribute names of the dataclass JiraIssue, in declaration
order: the inherited base fields and nothing else. -/
def JiraIssue.fieldNames : List String :=
  ["id", "source", "title", "created", "description", "status", "comments"]

/-- JiraIssue.__str__. -/
def jiraIssueStr (i : JiraIssue) : String :=
  "Jira Issue " ++ i.id ++ "\n" ++
  "Created: " ++ i.created ++ "\n" ++
  "Title: " ++ i.title ++ "\n" ++
  "Description: " ++ i.description ++ "\n" ++
  "Status: " ++ String.intercalate " " i.status ++ "\n" ++
  "Comments: " ++ String.intercalate "\n---------------------\n" i.comments ++ "\n"

/-- GithubPR.__str__, which returns the empty string. -/
def githubPRStr (_ : GithubPR) : String := ""

/-- Python repr of a string value, escape sequences not modelled (no
claim evaluates a rendering that contains them). -/
def pyRepr (s : String) : String := "'" ++ s ++ "'"

/-- Python repr of a list of strings. -/
def pyListRepr (l : List String) : String :=
  "[" ++ String.intercalate ", " (l.map pyRepr) ++ "]"

/-- The dataclass-generated repr that str falls back to for GithubIssue,
which defines no __str__ of its own. -/
def githubIssueStr (i : GithubIssue) : String :=
  "GithubIssue(id=" ++ pyRepr i.id ++ ", source=" ++ pyRepr i.source ++
  ", title=" ++ pyRepr i.title ++ ", created=" ++ pyRepr i.created ++
  ", description=" ++ pyRepr i.description ++ ", status=" ++ pyListRepr i.status ++
  ", comments=" ++ pyListRepr i.comments ++ ")"

/-- The dataclass-generated repr that str falls back to for GithubCommit. -/
def githubCommitStr (i : GithubCommit) : String :=
  "GithubCommit(id=" ++ pyRepr i.id ++ ", source=" ++ pyRepr i.source ++
  ", title=" ++ pyRepr i.title ++ ", created=" ++ pyRepr i.created ++
  ", description=" ++ pyRepr i.description ++ ", status=" ++ pyListRepr i.status ++
  ", comments=" ++ pyListRepr i.comments ++ ")"

/-- An element of the heterogeneous issues list of the observation. -/
inductive IssueRecord where
  | jira : JiraIssue → IssueRecord
  | github : GithubIssue → IssueRecord
  | pr : GithubPR → IssueRecord
  | commit : GithubCommit → IssueRecord
deriving DecidableEq

/-- str(issue) for an element of the issues list. -/
def issueStr : IssueRecord → String
  | .jira i => jiraIssueStr i
  | .github i => githubIssueStr i
  | .pr p => githubPRStr p
  | .commit c => githubCommitStr c

/-- The dataclass IssuesQueryObservation.  content is the Observation
base field; the observation tag is the constant the source assigns. -/
structure IssuesQueryObservation where
  content : String
  issues : List IssueRecord
  observation : String := "issues"
deriving DecidableEq

/-- IssuesQueryObservation.get_agent_obs_text. -/
def get_agent_obs_text (o : IssuesQueryObservation) : String :=
  "The following issues were found:\n" ++
    String.intercalate "\n\n" (o.issues.map issueStr)

/-! ## Plugin shell

Python source (plugins/issues/__init__.py and events/action/issues.py).
-/

/-- The actions the framework can hand to a plugin: the issues-query
action, or any action of another type.  Models the framework's Action
base class (the Lean name Action is taken by the library). -/
inductive PluginAction where
  | issueQuery (query : String) (thought : String)
  | other (kind : String)
deriving DecidableEq

/-- Whether the action is an instance of the issues-query action type. -/
def PluginAction.isIssueQuery : PluginAction → Bool
  | .issueQuery _ _ => true
  | .other _ => false

/-- The module-level dummy Jira issue of the plugin. -/
def DUMMY_JIRA_ISSUE : JiraIssue :=
  { id := "28708"
    source := "jira"
    title := "Migrate Build Scan publication to develocity.apache.org"
    created := "01/14/25"
    description := "The Hive project publishes Build Scans to the Develocity instance at ge.apache.org. This instance migrating to a new URL, develocity.apache.org. Build scans published to ge.apache.org after today will not be migrated to the new Develocity instance."
    status := ["Resolved"]
    comments := ["Merged to master via [69d0a3d|https://github.com/apache/hive/commit/69d0a3ddff695597ad8221bae0ead48f8f38b57f], thanks [~clayburn] for your contribution and [~gmcdonald] for your review!"] }

/-- IssuesPlugin._run: a ValueError for any action that is not an
issues-query action, otherwise the placeholder observation holding the
dummy issue.  Raising is modelled as the error branch of Except. -/
def IssuesPlugin._run (action : PluginAction) : Except String IssuesQueryObservation :=
  match action with
  | .issueQuery _ _ =>
    .ok { content := "", issues := [.jira DUMMY_JIRA_ISSUE] }
  | .other _ =>
    .error "Invalid action type, IssuesPlugin only supports IssuesQueryAction"

/-- Two adjacent characters are not both whitespace.  The invariant of
text whose whitespace runs have been collapsed. -/
def wsApart (a b : Char) : Prop := ¬(isWs a = true ∧ isWs b = true)
-- engine lemmas draft
theorem reFindGo_nil {α : Type} (step : List Char → Option (α × List Char)) (fuel : Nat) :
    reFindGo step fuel [] = [] := by
  cases fuel <;> rfl

theorem reFindGo_cons_eq {α : Type} (step : List Char → Option (α × List Char))
    (fuel : Nat) (c : Char) (rest : List Char) :
    reFindGo step (fuel + 1) (c :: rest) =
      match step (c :: rest) with
      | some (g, s) => g :: reFindGo step fuel s
      | none => reFindGo step fuel rest := rfl

theorem reFindGo_irrel {α : Type} (step : List Char → Option (α × List Char))
    (hstep : ∀ l p, step l = some p → p.2.length < l.length) :
    ∀ f1 f2 l, l.length ≤ f1 → l.length ≤ f2 →
      reFindGo step f1 l = reFindGo step f2 l := by
  intro f1
  induction f1 with
  | zero =>
    intro f2 l h1 _
    have hl : l = [] := List.length_eq_zero.mp (Nat.le_zero.mp h1)
    subst hl
    rw [reFindGo_nil, reFindGo_nil]
  | succ f ih =>
    intro f2 l h1 h2
    cases l with
    | nil => rw [reFindGo_nil, reFindGo_nil]
    | cons c rest =>
      cases f2 with
      | zero => exact absurd h2 (by simp)
      | succ g =>
        rw [reFindGo_cons_eq, reFindGo_cons_eq]
        cases hs : step (c :: rest) with
        | some p =>
          obtain ⟨a, s⟩ := p
          have hlen := hstep _ _ hs
          simp only [List.length_cons] at h1 h2 hlen
          show a :: reFindGo step f s = a :: reFindGo step g s
          rw [ih g s (by omega) (by omega)]
        | none =>
          simp only [List.length_cons] at h1 h2
          show reFindGo step f rest = reFindGo step g rest
          rw [ih g rest (by omega) (by omega)]

theorem reFind_cons {α : Type} (step : List Char → Option (α × List Char))
    (hstep : ∀ l p, step l = some p → p.2.length < l.length)
    (c : Char) (rest : List Char) :
    reFind step (c :: rest) =
      match step (c :: rest) with
      | some (g, s) => g :: reFind step s
      | none => reFind step rest := by
  show reFindGo step (rest.length + 1) (c :: rest) = _
  rw [reFindGo_cons_eq]
  cases hs : step (c :: rest) with
  | some p =>
    obtain ⟨a, s⟩ := p
    have hlen := hstep _ _ hs
    simp only [List.length_cons] at hlen
    show a :: reFindGo step rest.length s = a :: reFind step s
    rw [reFindGo_irrel step hstep rest.length s.length s (by omega) le_rfl]
    rfl
  | none => rfl

theorem reFind_nil_of_step_none {α : Type} (step : List Char → Option (α × List Char)) :
    ∀ l, (∀ l', l' <:+ l → step l' = none) → reFind step l = [] := by
  have go : ∀ fuel l, (∀ l', l' <:+ l → step l' = none) →
      reFindGo step fuel l = [] := by
    intro fuel
    induction fuel with
    | zero => intro l _; cases l <;> rfl
    | succ f ih =>
      intro l h
      cases l with
      | nil => rfl
      | cons c rest =>
        rw [reFindGo_cons_eq, h _ (List.suffix_refl _)]
        exact ih rest (fun l' hl' => h l' (hl'.trans (List.suffix_cons c rest)))
  intro l h
  exact go l.length l h

theorem mem_reFind {α : Type} (step : List Char → Option (α × List Char))
    (hsuf : ∀ l p, step l = some p → p.2 <:+ l) :
    ∀ l g, g ∈ reFind step l → ∃ l' s, l' <:+ l ∧ step l' = some (g, s) := by
  have go : ∀ fuel l g, g ∈ reFindGo step fuel l →
      ∃ l' s, l' <:+ l ∧ step l' = some (g, s) := by
    intro fuel
    induction fuel with
    | zero =>
      intro l g hg
      have h0 : reFindGo step 0 l = [] := by cases l <;> rfl
      rw [h0] at hg
      cases hg
    | succ f ih =>
      intro l g hg
      cases l with
      | nil => cases hg
      | cons c rest =>
        rw [reFindGo_cons_eq] at hg
        cases hs : step (c :: rest) with
        | some p =>
          obtain ⟨a, s⟩ := p
          rw [hs] at hg
          have hg' : g = a ∨ g ∈ reFindGo step f s := List.mem_cons.mp hg
          rcases hg' with hg | hg
          · subst hg
            exact ⟨c :: rest, s, List.suffix_refl _, hs⟩
          · obtain ⟨l', s', hsub, hm⟩ := ih s g hg
            exact ⟨l', s', hsub.trans (hsuf _ _ hs), hm⟩
        | none =>
          rw [hs] at hg
          obtain ⟨l', s', hsub, hm⟩ := ih rest g hg
          exact ⟨l', s', hsub.trans (List.suffix_cons c rest), hm⟩
  intro l g hg
  exact go l.length l g hg

theorem reSubEmptyGo_nil (step : List Char → Option (List Char)) (fuel : Nat) :
    reSubEmptyGo step fuel [] = [] := by
  cases fuel <;> rfl

theorem reSubEmptyGo_cons_eq (step : List Char → Option (List Char))
    (fuel : Nat) (c : Char) (rest : List Char) :
    reSubEmptyGo step (fuel + 1) (c :: rest) =
      match step (c :: rest) with
      | some s => reSubEmptyGo step fuel s
      | none => c :: reSubEmptyGo step fuel rest := rfl

theorem reSubEmptyGo_irrel (step : List Char → Option (List Char))
    (hstep : ∀ l s, step l = some s → s.length < l.length) :
    ∀ f1 f2 l, l.length ≤ f1 → l.length ≤ f2 →
      reSubEmptyGo step f1 l = reSubEmptyGo step f2 l := by
  intro f1
  induction f1 with
  | zero =>
    intro f2 l h1 _
    have hl : l = [] := List.length_eq_zero.mp (Nat.le_zero.mp h1)
    subst hl
    rw [reSubEmptyGo_nil, reSubEmptyGo_nil]
  | succ f ih =>
    intro f2 l h1 h2
    cases l with
    | nil => rw [reSubEmptyGo_nil, reSubEmptyGo_nil]
    | cons c rest =>
      cases f2 with
      | zero => exact absurd h2 (by simp)
      | succ g =>
        rw [reSubEmptyGo_cons_eq, reSubEmptyGo_cons_eq]
        cases hs : step (c :: rest) with
        | some s =>
          have hlen := hstep _ _ hs
          simp only [List.length_cons] at h1 h2 hlen
          show reSubEmptyGo step f s = reSubEmptyGo step g s
          rw [ih g s (by omega) (by omega)]
        | none =>
          simp only [List.length_cons] at h1 h2
          show c :: reSubEmptyGo step f rest = c :: reSubEmptyGo step g rest
          rw [ih g rest (by omega) (by omega)]

theorem reSubEmpty_cons (step : List Char → Option (List Char))
    (hstep : ∀ l s, step l = some s → s.length < l.length)
    (c : Char) (rest : List Char) :
    reSubEmpty step (c :: rest) =
      match step (c :: rest) with
      | some s => reSubEmpty step s
      | none => c :: reSubEmpty step rest := by
  show reSubEmptyGo step (rest.length + 1) (c :: rest) = _
  rw [reSubEmptyGo_cons_eq]
  cases hs : step (c :: rest) with
  | some s =>
    have hlen := hstep _ _ hs
    simp only [List.length_cons] at hlen
    show reSubEmptyGo step rest.length s = reSubEmpty step s
    rw [reSubEmptyGo_irrel step hstep rest.length s.length s (by omega) le_rfl]
    rfl
  | none => rfl

/-! ## Lemmas on the pattern matchers -/

theorem matchLit_spec : ∀ (pat l r : List Char), matchLit pat l = some r →
    r <:+ l ∧ r.length + pat.length = l.length := by
  intro pat
  induction pat with
  | nil =>
    intro l r h
    cases h
    exact ⟨List.suffix_refl _, by simp⟩
  | cons p ps ih =>
    intro l r h
    cases l with
    | nil => cases h
    | cons c cs =>
      rw [matchLit] at h
      split at h
      · obtain ⟨hsub, hlen⟩ := ih cs r h
        exact ⟨hsub.trans (List.suffix_cons c cs), by simp only [List.length_cons]; omega⟩
      · cases h

theorem afterFirst_spec : ∀ (l : List Char) (x : Char) (r : List Char),
    afterFirst x l = some r → r <:+ l ∧ r.length < l.length := by
  intro l
  induction l with
  | nil => intro x r h; cases h
  | cons c rest ih =>
    intro x r h
    rw [afterFirst] at h
    split at h
    · cases h
      exact ⟨List.suffix_cons c rest, by simp⟩
    · obtain ⟨hsub, hlen⟩ := ih x r h
      exact ⟨hsub.trans (List.suffix_cons c rest), by simp only [List.length_cons]; omega⟩

theorem splitAtFirstBar_spec : ∀ (l b a : List Char),
    splitAtFirstBar l = some (b, a) → a <:+ l ∧ a.length < l.length := by
  intro l
  induction l with
  | nil => intro b a h; cases h
  | cons c rest ih =>
    intro b a h
    rw [splitAtFirstBar] at h
    split at h
    · cases h
      exact ⟨List.suffix_cons c rest, by simp⟩
    · split at h
      · rename_i b' a' heq
        cases h
        obtain ⟨hsub, hlen⟩ := ih b' a heq
        exact ⟨hsub.trans (List.suffix_cons c rest), by simp only [List.length_cons]; omega⟩
      · cases h

theorem dropWhile_length_le (p : Char → Bool) (l : List Char) :
    (l.dropWhile p).length ≤ l.length :=
  (List.dropWhile_suffix p).length_le

theorem takeWhile_add_dropWhile_length (p : Char → Bool) (l : List Char) :
    (l.takeWhile p).length + (l.dropWhile p).length = l.length := by
  conv_rhs => rw [← List.takeWhile_append_dropWhile (p := p) (l := l)]
  rw [List.length_append]

theorem matchTicketAt_shrink {l : List Char} {m : TicketMatch} {s : List Char}
    (h : matchTicketAt l = some (m, s)) : s <:+ l ∧ s.length < l.length := by
  rw [matchTicketAt] at h
  simp only [] at h
  split at h
  · cases h
  · split at h
    · cases h
    · rename_i c r2 hdrop
      split at h
      · split at h
        · cases h
        · rename_i hds
          cases h
          have h1 : (r2.dropWhile isAsciiDigit) <:+ r2 := List.dropWhile_suffix _
          have h2 : r2 <:+ l := by
            have : c :: r2 <:+ l := hdrop ▸ List.dropWhile_suffix isAsciiLetter
            exact (List.suffix_cons c r2).trans this
          have hlet : ¬(l.takeWhile isAsciiLetter).isEmpty := by assumption
          have hlen : (l.takeWhile isAsciiLetter).length + (c :: r2).length = l.length := by
            rw [← hdrop]
            exact takeWhile_add_dropWhile_length _ _
          have hpos : 0 < (l.takeWhile isAsciiLetter).length := by
            cases hq : l.takeWhile isAsciiLetter with
            | nil => rw [hq] at hlet; simp at hlet
            | cons _ _ => simp
          constructor
          · exact h1.trans h2
          · have := h1.length_le
            simp only [List.length_cons] at hlen
            omega
      · cases h

theorem matchTicketAt_chars {l : List Char} {m : TicketMatch} {s : List Char}
    (h : matchTicketAt l = some (m, s)) :
    ∃ a, a ≠ [] ∧ (∀ c ∈ a, isAsciiLetter c = true) ∧ m.digits ≠ []
      ∧ (∀ c ∈ m.digits, isAsciiDigit c = true)
      ∧ m.full = a ++ '-' :: m.digits := by
  rw [matchTicketAt] at h
  simp only [] at h
  split at h
  · cases h
  · split at h
    · cases h
    · rename_i c r2 hdrop
      split at h
      · split at h
        · cases h
        · cases h
          refine ⟨l.takeWhile isAsciiLetter, ?_,
            fun x hx => List.mem_takeWhile_imp hx, ?_,
            fun x hx => List.mem_takeWhile_imp hx, rfl⟩
          · intro hq; simp_all
          · intro hq; simp_all
      · cases h

theorem takeWhile_all_append {p : Char → Bool} :
    ∀ (a : List Char) (x : Char) (r : List Char),
      (∀ c ∈ a, p c = true) → p x = false →
      (a ++ x :: r).takeWhile p = a ∧ (a ++ x :: r).dropWhile p = x :: r := by
  intro a
  induction a with
  | nil =>
    intro x r _ hx
    simp [List.takeWhile, List.dropWhile, hx]
  | cons c a' ih =>
    intro x r ha hx
    have hc : p c = true := ha c (List.mem_cons_self c a')
    have := ih x r (fun d hd => ha d (List.mem_cons_of_mem c hd)) hx
    simp [List.takeWhile, List.dropWhile, hc, this.1, this.2]

theorem extract_ticket_number_full {a b : List Char} (ha : a ≠ [])
    (hal : ∀ c ∈ a, isAsciiLetter c = true) (hb : b ≠ [])
    (hbd : ∀ c ∈ b, isAsciiDigit c = true) :
    extract_ticket_number (a ++ '-' :: b) = b := by
  obtain ⟨x, a', rfl⟩ := List.exists_cons_of_ne_nil ha
  have hsplit := takeWhile_all_append (x :: a') '-' b hal (by decide)
  have hm : matchTicketAt ((x :: a') ++ '-' :: b) = some (⟨(x :: a') ++ '-' :: b, b⟩, []) := by
    rw [matchTicketAt]
    simp only [hsplit.1, hsplit.2]
    rw [if_neg (by simp)]
    rw [if_pos trivial]
    have htb : b.takeWhile isAsciiDigit = b := List.takeWhile_eq_self_iff.mpr hbd
    have hdb : b.dropWhile isAsciiDigit = [] := by
      have := List.takeWhile_append_dropWhile (p := isAsciiDigit) (l := b)
      rw [htb] at this
      have hlen := congrArg List.length this
      rw [List.length_append] at hlen
      cases hq : b.dropWhile isAsciiDigit with
      | nil => rfl
      | cons u v => rw [hq] at hlen; simp at hlen
    rw [htb, hdb]
    rw [if_neg (by simp [List.isEmpty_iff, hb])]
  have : (x :: a') ++ '-' :: b = x :: (a' ++ '-' :: b) := by simp
  rw [this] at hm ⊢
  rw [extract_ticket_number, hm]

theorem matchTicketAt_len : ∀ (l : List Char) (p : TicketMatch × List Char),
    matchTicketAt l = some p → p.2.length < l.length := by
  intro l p h
  obtain ⟨m, s⟩ := p
  exact (matchTicketAt_shrink h).2

theorem matchTicketAt_suf : ∀ (l : List Char) (p : TicketMatch × List Char),
    matchTicketAt l = some p → p.2 <:+ l := by
  intro l p h
  obtain ⟨m, s⟩ := p
  exact (matchTicketAt_shrink h).1

theorem extract_ticket_number_eq (l : List Char) :
    extract_ticket_number l = ((findTickets l).head?.map TicketMatch.digits).getD [] := by
  induction l with
  | nil => rfl
  | cons c rest ih =>
    rw [show findTickets (c :: rest) = reFind matchTicketAt (c :: rest) from rfl,
        reFind_cons matchTicketAt matchTicketAt_len c rest]
    simp only [extract_ticket_number]
    cases hs : matchTicketAt (c :: rest) with
    | some p =>
      obtain ⟨m, s⟩ := p
      rfl
    | none => exact ih

theorem findTickets_props (l : List Char) :
    ∀ t ∈ findTickets l, ∃ a, a ≠ [] ∧ (∀ c ∈ a, isAsciiLetter c = true) ∧ t.digits ≠ []
      ∧ (∀ c ∈ t.digits, isAsciiDigit c = true) ∧ t.full = a ++ '-' :: t.digits := by
  intro t ht
  obtain ⟨l', s, _, hm⟩ := mem_reFind matchTicketAt matchTicketAt_suf l t ht
  exact matchTicketAt_chars hm

theorem extract_all_eq (l : List Char) :
    extract_all_ticket_numbers l = ((findTickets l).map TicketMatch.digits).dedup := by
  rw [extract_all_ticket_numbers]
  have hmap : (findTickets l).map (fun t => extract_ticket_number t.full)
      = (findTickets l).map TicketMatch.digits := by
    apply List.map_congr_left
    intro t ht
    obtain ⟨a, ha, hal, hd, hdd, hfull⟩ := findTickets_props l t ht
    rw [hfull]
    exact extract_ticket_number_full ha hal hd hdd
  rw [hmap]
  have hfil : ((findTickets l).map TicketMatch.digits).filter (fun d => !d.isEmpty)
      = (findTickets l).map TicketMatch.digits := by
    rw [List.filter_eq_self]
    intro d hd
    obtain ⟨t, ht, rfl⟩ := List.mem_map.mp hd
    obtain ⟨a, _, _, hdne, _, _⟩ := findTickets_props l t ht
    simp [List.isEmpty_iff, hdne]
  rw [hfil]

/-! ## Lemmas for clean_text -/

theorem tagStep_len : ∀ (l s : List Char), tagStep l = some s → s.length < l.length := by
  intro l s h
  cases l with
  | nil => cases h
  | cons c rest =>
    rw [tagStep] at h
    split at h
    · cases rest with
      | nil => cases h
      | cons d rs =>
        rw [tagTail] at h
        split at h
        · cases h
        · obtain ⟨_, hlen⟩ := afterFirst_spec rs '>' s h
          simp only [List.length_cons]
          omega
    · cases h

theorem braceStep_len : ∀ (l s : List Char), braceStep l = some s → s.length < l.length := by
  intro l s h
  cases l with
  | nil => cases h
  | cons c rest =>
    rw [braceStep] at h
    split at h
    · obtain ⟨_, hlen⟩ := afterFirst_spec rest '\x7d' s h
      simp only [List.length_cons]
      omega
    · cases h

theorem removeTags_eq_self : ∀ {l : List Char}, (∀ c ∈ l, c ≠ '<') → removeTags l = l := by
  intro l
  induction l with
  | nil => intro _; rfl
  | cons c rest ih =>
    intro h
    have hstep : tagStep (c :: rest) = none := by
      rw [tagStep, if_neg (h c (List.mem_cons_self c rest))]
    rw [show removeTags (c :: rest) = reSubEmpty tagStep (c :: rest) from rfl,
        reSubEmpty_cons tagStep tagStep_len c rest, hstep]
    show c :: removeTags rest = c :: rest
    rw [ih (fun d hd => h d (List.mem_cons_of_mem c hd))]

theorem removeBraces_eq_self : ∀ {l : List Char}, (∀ c ∈ l, c ≠ '\x7b') → removeBraces l = l := by
  intro l
  induction l with
  | nil => intro _; rfl
  | cons c rest ih =>
    intro h
    have hstep : braceStep (c :: rest) = none := by
      rw [braceStep, if_neg (h c (List.mem_cons_self c rest))]
    rw [show removeBraces (c :: rest) = reSubEmpty braceStep (c :: rest) from rfl,
        reSubEmpty_cons braceStep braceStep_len c rest, hstep]
    show c :: removeBraces rest = c :: rest
    rw [ih (fun d hd => h d (List.mem_cons_of_mem c hd))]

theorem mem_collapseWs : ∀ (l : List Char) (c : Char), c ∈ collapseWs l → c = ' ' ∨ c ∈ l := by
  intro l
  induction l with
  | nil => intro c hc; cases hc
  | cons a rest ih =>
    cases rest with
    | nil =>
      intro c hc
      rw [collapseWs] at hc
      by_cases hw : isWs a = true
      · simp [hw] at hc
        exact Or.inl hc
      · simp [hw] at hc
        exact Or.inr (by simp [hc])
    | cons d rs =>
      intro c hc
      rw [collapseWs] at hc
      split at hc
      · rcases ih c hc with h | h
        · exact Or.inl h
        · exact Or.inr (List.mem_cons_of_mem a h)
      · rcases List.mem_cons.mp hc with h | h
        · subst h
          by_cases hw : isWs a = true
          · simp [hw]
          · simp [hw]
        · rcases ih c h with h' | h'
          · exact Or.inl h'
          · exact Or.inr (List.mem_cons_of_mem a h')

theorem collapseWs_ws_mem : ∀ (l : List Char) (c : Char),
    c ∈ collapseWs l → isWs c = true → c = ' ' := by
  intro l
  induction l with
  | nil => intro c hc _; cases hc
  | cons a rest ih =>
    cases rest with
    | nil =>
      intro c hc hw
      rw [collapseWs] at hc
      by_cases ha : isWs a = true
      · simpa [ha] using hc
      · simp [ha] at hc
        rw [hc] at hw
        exact absurd hw (by simp [ha])
    | cons d rs =>
      intro c hc hw
      rw [collapseWs] at hc
      split at hc
      · exact ih c hc hw
      · rcases List.mem_cons.mp hc with h | h
        · subst h
          by_cases ha : isWs a = true
          · simp [ha]
          · rw [if_neg ha] at hw
            exact absurd hw (by simp [ha])
        · exact ih c h hw

theorem head_collapseWs : ∀ (d : Char) (rs : List Char),
    isWs d = false → (collapseWs (d :: rs)).head? = some d := by
  intro d rs hd
  cases rs with
  | nil => rw [collapseWs]; simp [hd]
  | cons e rs' =>
    rw [collapseWs]
    rw [if_neg (by simp [hd])]
    simp [hd]

theorem collapseWs_chain : ∀ (l : List Char), (collapseWs l).Chain' wsApart := by
  intro l
  induction l with
  | nil => simp [collapseWs]
  | cons a rest ih =>
    cases rest with
    | nil =>
      rw [collapseWs]
      exact List.chain'_singleton _
    | cons d rs =>
      rw [collapseWs]
      split
      · exact ih
      · rename_i hnb
        rw [List.chain'_cons']
        refine ⟨?_, ih⟩
        intro y hy
        by_cases hd : isWs d = true
        · have ha : isWs a = false := by
            by_cases ha' : isWs a = true
            · exact absurd (by simp [ha', hd]) hnb
            · simpa using ha'
          rw [if_neg (by simp [ha])]
          intro hpair
          rw [ha] at hpair
          cases hpair.1
        · have hh : (collapseWs (d :: rs)).head? = some d :=
            head_collapseWs d rs (by simpa using hd)
          rw [hh] at hy
          have hyd : d = y := by simpa using hy
          subst hyd
          intro hpair
          exact hd hpair.2

theorem collapseWs_eq_self : ∀ (l : List Char),
    (∀ c ∈ l, isWs c = true → c = ' ') → l.Chain' wsApart → collapseWs l = l := by
  intro l
  induction l with
  | nil => intro _ _; rfl
  | cons a rest ih =>
    cases rest with
    | nil =>
      intro h1 _
      rw [collapseWs]
      by_cases hw : isWs a = true
      · rw [if_pos hw, h1 a (List.mem_cons_self _ _) hw]
      · rw [if_neg hw]
    | cons d rs =>
      intro h1 h2
      rw [collapseWs]
      have hcd := (List.chain'_cons.mp h2).1
      have hb : ¬((isWs a && isWs d) = true) := by
        intro hab
        rw [Bool.and_eq_true] at hab
        exact hcd hab
      rw [if_neg hb]
      have htail := ih (fun c hc hw => h1 c (List.mem_cons_of_mem a hc) hw)
        (List.chain'_cons.mp h2).2
      rw [htail]
      by_cases hw : isWs a = true
      · rw [if_pos hw, h1 a (List.mem_cons_self _ _) hw]
      · rw [if_neg hw]

theorem mem_dropWhileL {p : Char → Bool} {l : List Char} {c : Char}
    (h : c ∈ l.dropWhile p) : c ∈ l :=
  (List.dropWhile_suffix p).subset h

theorem mem_stripL {l : List Char} {c : Char} (h : c ∈ stripL l) : c ∈ l := by
  rw [stripL, List.mem_reverse] at h
  have h2 := mem_dropWhileL h
  rw [List.mem_reverse] at h2
  exact mem_dropWhileL h2

theorem chain_dropWhile {R : Char → Char → Prop} {p : Char → Bool} :
    ∀ {l : List Char}, l.Chain' R → (l.dropWhile p).Chain' R := by
  intro l h
  induction l with
  | nil => exact h
  | cons c rest ih =>
    rw [List.dropWhile_cons]
    split
    · exact ih h.tail
    · exact h

theorem chain_reverse_ws {l : List Char} (h : l.Chain' wsApart) :
    l.reverse.Chain' wsApart := by
  rw [List.chain'_reverse]
  exact h.imp (fun a b hab => fun hp => hab ⟨hp.2, hp.1⟩)

theorem stripL_chain {l : List Char} (h : l.Chain' wsApart) :
    (stripL l).Chain' wsApart := by
  rw [stripL]
  exact chain_reverse_ws (chain_dropWhile (chain_reverse_ws (chain_dropWhile h)))

theorem head_dropWhile_false {p : Char → Bool} :
    ∀ (l : List Char) {c : Char} {rest : List Char},
      l.dropWhile p = c :: rest → p c = false := by
  intro l
  induction l with
  | nil => intro c rest h; cases h
  | cons a l' ih =>
    intro c rest h
    rw [List.dropWhile_cons] at h
    split at h
    · exact ih h
    · rename_i hp
      injection h with h1 _
      subst h1
      simpa using hp

theorem head_option_dropWhile {p : Char → Bool} (l : List Char) :
    ∀ c ∈ (l.dropWhile p).head?, p c = false := by
  intro c hc
  cases hq : l.dropWhile p with
  | nil => rw [hq] at hc; cases hc
  | cons d rest =>
    rw [hq] at hc
    have hcd : d = c := by simpa using hc
    subst hcd
    exact head_dropWhile_false l hq

theorem getLast_option_suffix {l' l : List Char} (h : l' <:+ l) (hne : l' ≠ []) :
    l'.getLast? = l.getLast? := by
  obtain ⟨pre, rfl⟩ := h
  rw [← List.head?_reverse, ← List.head?_reverse, List.reverse_append]
  cases hq : l'.reverse with
  | nil => exact absurd (by simpa using congrArg List.reverse hq) hne
  | cons x xs => rfl

theorem stripL_last (l : List Char) : ∀ c ∈ (stripL l).getLast?, isWs c = false := by
  intro c hc
  rw [stripL, List.getLast?_reverse] at hc
  exact head_option_dropWhile _ c hc

theorem stripL_head (l : List Char) : ∀ c ∈ (stripL l).head?, isWs c = false := by
  intro c hc
  rw [stripL, List.head?_reverse] at hc
  cases hq : (l.dropWhile isWs).reverse.dropWhile isWs with
  | nil => rw [hq] at hc; cases hc
  | cons x xs =>
    have hgl : ((l.dropWhile isWs).reverse.dropWhile isWs).getLast?
        = (l.dropWhile isWs).reverse.getLast? :=
      getLast_option_suffix (List.dropWhile_suffix _) (by rw [hq]; exact List.cons_ne_nil x xs)
    rw [hgl, List.getLast?_reverse] at hc
    exact head_option_dropWhile _ c hc

theorem dropWhile_eq_self_of_head {p : Char → Bool} {l : List Char}
    (h : ∀ c ∈ l.head?, p c = false) : l.dropWhile p = l := by
  cases l with
  | nil => rfl
  | cons c rest =>
    have hc := h c (by simp)
    rw [List.dropWhile_cons]
    simp [hc]

theorem stripL_eq_self {l : List Char} (h1 : ∀ c ∈ l.head?, isWs c = false)
    (h2 : ∀ c ∈ l.getLast?, isWs c = false) : stripL l = l := by
  rw [stripL]
  rw [dropWhile_eq_self_of_head h1]
  rw [dropWhile_eq_self_of_head (by intro c hc; rw [List.head?_reverse] at hc; exact h2 c hc)]
  exact List.reverse_reverse l

/-! ## Lemmas on the GitHub matchers -/

theorem urlStart_ne_nil : urlStart ≠ [] := by decide

theorem commitUrlBase_ne_nil (repo : List Char) : commitUrlBase repo ≠ [] := by
  intro hc
  rw [commitUrlBase] at hc
  exact urlStart_ne_nil (List.append_eq_nil.mp (List.append_eq_nil.mp hc).1).1

theorem pullUrlBase_ne_nil (repo : List Char) : pullUrlBase repo ≠ [] := by
  intro hc
  rw [pullUrlBase] at hc
  exact urlStart_ne_nil (List.append_eq_nil.mp (List.append_eq_nil.mp hc).1).1

theorem matchLit_lt {pat l r : List Char} (hp : pat ≠ []) (h : matchLit pat l = some r) :
    r.length < l.length := by
  obtain ⟨_, hlen⟩ := matchLit_spec pat l r h
  have : 0 < pat.length := List.length_pos.mpr hp
  omega

theorem matchCommitA_spec {repo l g s : List Char} (h : matchCommitA repo l = some (g, s)) :
    (s <:+ l ∧ s.length < l.length) ∧ 7 ≤ g.length
    ∧ ∃ l', l' <:+ l ∧ hasUrlAt (commitUrlBase repo) commitTail l' = true := by
  rw [matchCommitA.eq_def] at h
  split at h
  · cases h
  · rename_i c rest
    split at h
    · split at h
      · cases h
      · rename_i before after hsplit
        split at h
        · cases h
        · split at h
          · cases h
          · rename_i r2 hlit
            split at h
            · rename_i rest4 hdrop
              simp only [] at h
              split at h
              · rename_i hcond
                cases h
                have hc7 : 7 ≤ (r2.takeWhile isHexDigitCI).length := by
                  rw [Bool.and_eq_true] at hcond
                  exact of_decide_eq_true hcond.1
                have hsub1 : after <:+ rest := (splitAtFirstBar_spec rest before after hsplit).1
                have hsub2 : r2 <:+ after := (matchLit_spec _ _ _ hlit).1
                have hsub3 : (']' :: s) <:+ r2 := by
                  rw [← hdrop]; exact List.dropWhile_suffix _
                have hsub4 : s <:+ r2 := (List.suffix_cons ']' s).trans hsub3
                refine ⟨⟨?_, ?_⟩, hc7, after, hsub1.trans (List.suffix_cons c rest), ?_⟩
                · exact ((hsub4.trans hsub2).trans hsub1).trans (List.suffix_cons c rest)
                · have e1 := hsub3.length_le
                  have e2 := hsub2.length_le
                  have e3 := hsub1.length_le
                  simp only [List.length_cons] at e1 ⊢
                  omega
                · rw [hasUrlAt, hlit]
                  show commitTail r2 = true
                  exact decide_eq_true hc7
              · cases h
            · simp only [] at h
              split at h
              · cases h
              · cases h
    · cases h

theorem matchCommitB_spec {repo l g s : List Char} (h : matchCommitB repo l = some (g, s)) :
    (s <:+ l ∧ s.length < l.length) ∧ 7 ≤ g.length
    ∧ hasUrlAt (commitUrlBase repo) commitTail l = true := by
  rw [matchCommitB.eq_def] at h
  split at h
  · cases h
  · rename_i r2 hlit
    simp only [] at h
    split at h
    · rename_i hcond
      cases h
      have hc7 : 7 ≤ (r2.takeWhile isHexDigitCI).length := hcond
      have hsubl : r2 <:+ l := (matchLit_spec _ _ _ hlit).1
      have hlt : r2.length < l.length := matchLit_lt (commitUrlBase_ne_nil repo) hlit
      have hsubd : r2.dropWhile isHexDigitCI <:+ r2 := List.dropWhile_suffix _
      refine ⟨⟨hsubd.trans hsubl, ?_⟩, ?_, ?_⟩
      · have := hsubd.length_le
        omega
      · have : ((r2.takeWhile isHexDigitCI).take 7).length = 7 := by
          rw [List.length_take]
          exact Nat.min_eq_left hc7
        omega
      · rw [hasUrlAt, hlit]
        show commitTail r2 = true
        exact decide_eq_true hc7
    · cases h

theorem matchCommit_spec {repo l : List Char} {p : List Char × List Char}
    (h : matchCommit repo l = some p) :
    (p.2 <:+ l ∧ p.2.length < l.length) ∧ 7 ≤ p.1.length
    ∧ ∃ l', l' <:+ l ∧ hasUrlAt (commitUrlBase repo) commitTail l' = true := by
  obtain ⟨g, s⟩ := p
  rw [matchCommit.eq_def] at h
  split at h
  · rename_i r hA
    cases h
    exact matchCommitA_spec hA
  · rename_i hA
    obtain ⟨⟨h1, h2⟩, h3, h4⟩ := matchCommitB_spec h
    exact ⟨⟨h1, h2⟩, h3, l, List.suffix_refl l, h4⟩

theorem matchCommit_len (repo : List Char) : ∀ (l : List Char) (p : List Char × List Char),
    matchCommit repo l = some p → p.2.length < l.length :=
  fun _ _ h => (matchCommit_spec h).1.2

theorem matchCommit_suf (repo : List Char) : ∀ (l : List Char) (p : List Char × List Char),
    matchCommit repo l = some p → p.2 <:+ l :=
  fun _ _ h => (matchCommit_spec h).1.1

theorem matchPrA_spec {repo l g s : List Char} (h : matchPrA repo l = some (g, s)) :
    (s <:+ l ∧ s.length < l.length)
    ∧ ∃ l', l' <:+ l ∧ hasUrlAt (pullUrlBase repo) prTail l' = true := by
  rw [matchPrA.eq_def] at h
  split at h
  · cases h
  · rename_i c rest
    split at h
    · split at h
      · cases h
      · rename_i before after hsplit
        split at h
        · cases h
        · split at h
          · cases h
          · rename_i r2 hlit
            split at h
            · rename_i rest4 hdrop
              simp only [] at h
              split at h
              · cases h
              · rename_i hds
                cases h
                have hsub1 : after <:+ rest := (splitAtFirstBar_spec rest before after hsplit).1
                have hsub2 : r2 <:+ after := (matchLit_spec _ _ _ hlit).1
                have hsub3 : (']' :: s) <:+ r2 := by
                  rw [← hdrop]; exact List.dropWhile_suffix _
                have hsub4 : s <:+ r2 := (List.suffix_cons ']' s).trans hsub3
                refine ⟨⟨?_, ?_⟩, after, hsub1.trans (List.suffix_cons c rest), ?_⟩
                · exact ((hsub4.trans hsub2).trans hsub1).trans (List.suffix_cons c rest)
                · have e1 := hsub3.length_le
                  have e2 := hsub2.length_le
                  have e3 := hsub1.length_le
                  simp only [List.length_cons] at e1 ⊢
                  omega
                · rw [hasUrlAt, hlit]
                  show prTail r2 = true
                  rw [prTail]
                  simp only [Bool.not_eq_true']
                  simpa using hds
            · simp only [] at h
              split at h
              · cases h
              · cases h
    · cases h

theorem matchPrB_spec {repo l g s : List Char} (h : matchPrB repo l = some (g, s)) :
    (s <:+ l ∧ s.length < l.length)
    ∧ hasUrlAt (pullUrlBase repo) prTail l = true := by
  rw [matchPrB.eq_def] at h
  split at h
  · cases h
  · rename_i r2 hlit
    simp only [] at h
    split at h
    · cases h
    · rename_i hds
      cases h
      have hsubl : r2 <:+ l := (matchLit_spec _ _ _ hlit).1
      have hlt : r2.length < l.length := matchLit_lt (pullUrlBase_ne_nil repo) hlit
      have hsubd : r2.dropWhile isAsciiDigit <:+ r2 := List.dropWhile_suffix _
      refine ⟨⟨hsubd.trans hsubl, ?_⟩, ?_⟩
      · have := hsubd.length_le
        omega
      · rw [hasUrlAt, hlit]
        show prTail r2 = true
        rw [prTail]
        simp only [Bool.not_eq_true']
        simpa using hds

theorem matchPr_spec {repo l : List Char} {p : List Char × List Char}
    (h : matchPr repo l = some p) :
    (p.2 <:+ l ∧ p.2.length < l.length)
    ∧ ∃ l', l' <:+ l ∧ hasUrlAt (pullUrlBase repo) prTail l' = true := by
  obtain ⟨g, s⟩ := p
  rw [matchPr.eq_def] at h
  split at h
  · rename_i r hA
    cases h
    exact matchPrA_spec hA
  · rename_i hA
    obtain ⟨⟨h1, h2⟩, h4⟩ := matchPrB_spec h
    exact ⟨⟨h1, h2⟩, l, List.suffix_refl l, h4⟩

theorem matchPr_len (repo : List Char) : ∀ (l : List Char) (p : List Char × List Char),
    matchPr repo l = some p → p.2.length < l.length :=
  fun _ _ h => (matchPr_spec h).1.2

theorem matchPr_suf (repo : List Char) : ∀ (l : List Char) (p : List Char × List Char),
    matchPr repo l = some p → p.2 <:+ l :=
  fun _ _ h => (matchPr_spec h).1.1

theorem hasUrl_all_false {base : List Char} {tailOk : List Char → Bool}
    (hb : base ≠ []) : ∀ {l : List Char}, hasUrl base tailOk l = false →
    ∀ l', l' <:+ l → hasUrlAt base tailOk l' = false := by
  intro l
  induction l with
  | nil =>
    intro _ l' hl'
    have hl'' : l' = [] := List.suffix_nil.mp hl'
    subst hl''
    rw [hasUrlAt]
    cases base with
    | nil => exact absurd rfl hb
    | cons p ps => rfl
  | cons c rest ih =>
    intro h l' hl'
    rw [hasUrl] at h
    rw [Bool.or_eq_false_iff] at h
    rcases List.suffix_cons_iff.mp hl' with rfl | hl''
    · exact h.1
    · exact ih h.2 l' hl''

/-! ## Claim theorems -/

/-- Claim C1, counterexample: clean_text is not idempotent.  Removing
the tag-shaped span from the middle of the string a < b > c leaves two
adjacent spaces, and only a second application collapses them. -/
theorem clean_text_not_idempotent :
    clean_text (clean_text "a < b > c".data) ≠ clean_text "a < b > c".data := by
  decide

/-- Claim C1, amended: clean_text is idempotent on every input that
contains neither the tag-opening character nor the brace-opening
character; the two removal substitutions can otherwise uncover adjacent
whitespace that only the next application collapses. -/
theorem clean_text_idempotent_of_no_tag_brace (l : List Char)
    (h : ∀ c ∈ l, c ≠ '<' ∧ c ≠ '\x7b') :
    clean_text (clean_text l) = clean_text l := by
  by_cases hl : l = []
  · subst hl; rfl
  · have hdef : clean_text l = stripL (removeBraces (removeTags (stripL (collapseWs l)))) := by
      rw [clean_text, if_neg hl]
    rw [hdef]
    have hlt : ∀ c ∈ stripL (collapseWs l), c ≠ '<' ∧ c ≠ '\x7b' := by
      intro c hc
      rcases mem_collapseWs l c (mem_stripL hc) with h' | h'
      · subst h'; exact ⟨by decide, by decide⟩
      · exact h c h'
    rw [removeTags_eq_self (fun c hc => (hlt c hc).1),
        removeBraces_eq_self (fun c hc => (hlt c hc).2)]
    have hstrip : stripL (stripL (collapseWs l)) = stripL (collapseWs l) :=
      stripL_eq_self (stripL_head _) (stripL_last _)
    rw [hstrip]
    by_cases ht0 : stripL (collapseWs l) = []
    · rw [ht0]; rfl
    · have hdef2 : clean_text (stripL (collapseWs l))
          = stripL (removeBraces (removeTags (stripL (collapseWs (stripL (collapseWs l)))))) := by
        rw [clean_text, if_neg ht0]
      have hcw : collapseWs (stripL (collapseWs l)) = stripL (collapseWs l) :=
        collapseWs_eq_self _
          (fun c hc hw => collapseWs_ws_mem l c (mem_stripL hc) hw)
          (stripL_chain (collapseWs_chain l))
      rw [hdef2, hcw, hstrip]
      rw [removeTags_eq_self (fun c hc => (hlt c hc).1),
          removeBraces_eq_self (fun c hc => (hlt c hc).2)]
      exact hstrip

/-- Claim C1, witness of the amended theorem on a concrete input. -/
theorem clean_text_idempotent_witness :
    (∀ c ∈ "some  plain   words".data, c ≠ '<' ∧ c ≠ '\x7b')
  ∧ clean_text (clean_text "some  plain   words".data) = clean_text "some  plain   words".data :=
  ⟨by decide, clean_text_idempotent_of_no_tag_brace _ (by decide)⟩

/-- Claim C2: on the string See HIVE-1234 and hive-5678, the ticket
extraction returns exactly the ticket numbers 1234 and 5678 with no
duplicates, and extract_ticket_ids agrees with
extract_all_ticket_numbers. -/
theorem ticket_extraction_demo :
    List.Perm (extract_all_ticket_numbers "See HIVE-1234 and hive-5678".data)
      ["1234".data, "5678".data]
  ∧ (extract_all_ticket_numbers "See HIVE-1234 and hive-5678".data).Nodup
  ∧ extract_ticket_ids "See HIVE-1234 and hive-5678".data
      = extract_all_ticket_numbers "See HIVE-1234 and hive-5678".data :=
  ⟨by decide, by decide, rfl⟩

/-- Claim C3: ticket extraction is the findall of the case-insensitive
pattern of letters, dash, digits.  extract_ticket_number returns the
digit group of the first match and the empty string when there is none;
extract_all_ticket_numbers returns the digit groups of all matches,
deduplicated; and every match consists of a nonempty letter run, a
dash, and its nonempty digit group. -/
theorem ticket_extraction_characterization (l : List Char) :
    extract_ticket_number l = ((findTickets l).head?.map TicketMatch.digits).getD []
  ∧ extract_all_ticket_numbers l = ((findTickets l).map TicketMatch.digits).dedup
  ∧ (extract_all_ticket_numbers l).Nodup
  ∧ ((findTickets l).all fun t =>
      !(t.full.takeWhile isAsciiLetter).isEmpty
      && !t.digits.isEmpty && t.digits.all isAsciiDigit
      && (t.full == t.full.takeWhile isAsciiLetter ++ '-' :: t.digits)) = true := by
  refine ⟨extract_ticket_number_eq l, extract_all_eq l, ?_, ?_⟩
  · rw [extract_all_eq l]
    exact List.nodup_dedup _
  · rw [List.all_eq_true]
    intro t ht
    obtain ⟨a, ha, hal, hd, hdd, hfull⟩ := findTickets_props l t ht
    have htw : t.full.takeWhile isAsciiLetter = a := by
      rw [hfull]
      exact (takeWhile_all_append a '-' t.digits hal (by decide)).1
    rw [htw]
    simp only [Bool.and_eq_true, Bool.not_eq_true', beq_iff_eq]
    refine ⟨⟨⟨?_, ?_⟩, ?_⟩, hfull⟩
    · simp [List.isEmpty_iff, ha]
    · simp [List.isEmpty_iff, hd]
    · rw [List.all_eq_true]; exact hdd

/-- Claim C4: clean_text maps the empty string to the empty string and
tolerates a missing (None) value, returning the empty string rather
than failing, through the same falsiness test. -/
theorem clean_text_empty_and_none :
    clean_text_opt none = [] ∧ clean_text_opt (some []) = [] ∧ clean_text [] = [] :=
  ⟨rfl, rfl, rfl⟩

/-- Claim C7: IssuesPlugin._run rejects every action that is not an
issues-query action with a ValueError, modelled as the error branch,
and succeeds without error exactly on issues-query actions. -/
theorem issuesPlugin_run_type_check (a : PluginAction) :
    (IssuesPlugin._run a).isOk = a.isIssueQuery := by
  cases a <;> rfl

/-- Claim C8: for every issues-query action, whatever its query and
thought, _run returns the placeholder observation: empty content and
the single dummy Jira issue. -/
theorem issuesPlugin_run_dummy (q thought : String) :
    IssuesPlugin._run (.issueQuery q thought)
      = .ok { content := "", issues := [.jira DUMMY_JIRA_ISSUE] } := rfl

/-- Claim C9, counterexample: the JiraIssue dataclass does not extend
the base Issue shape with summary and component attributes; neither
name is among its fields. -/
theorem jiraIssue_extra_attrs_counterexample :
    JiraIssue.fieldNames ≠ Issue.fieldNames ++ ["summary", "component"]
  ∧ "summary" ∉ JiraIssue.fieldNames
  ∧ "component" ∉ JiraIssue.fieldNames := by
  refine ⟨by decide, by decide, by decide⟩

/-- Claim C9, amended: JiraIssue carries exactly the base Issue shape
(id, source, title, created, description, status, comments) and adds no
attributes; it adds only the string rendering. -/
theorem jiraIssue_no_extra_attrs :
    JiraIssue.fieldNames = Issue.fieldNames := rfl

/-- Claim C10: the string rendering of every GithubPR record is the
empty string, so in get_agent_obs_text a list of PRs contributes only
empty blocks: the header followed by one empty string per PR, joined by
blank-line separators. -/
theorem githubPR_str_empty_blocks :
    (∀ p : GithubPR, githubPRStr p = "")
  ∧ (∀ (content : String) (prs : List GithubPR),
      get_agent_obs_text { content := content, issues := prs.map IssueRecord.pr }
        = "The following issues were found:\n"
            ++ String.intercalate "\n\n" (List.replicate prs.length "")) := by
  refine ⟨fun _ => rfl, ?_⟩
  intro content prs
  rw [get_agent_obs_text]
  have h : (prs.map IssueRecord.pr).map issueStr = List.replicate prs.length "" := by
    induction prs with
    | nil => rfl
    | cons p ps ih =>
      simp only [List.map_cons, List.length_cons, List.replicate_succ]
      rw [ih]
      rfl
  rw [h]

/-- Claim C5: for every text and repository slug, every commit hash in
the commits list of extract_github_info is exactly 7 characters long,
and both the commits and prs lists are free of duplicates. -/
theorem extract_github_info_short_hashes_nodup (text repo : List Char) :
    ((extract_github_info text repo).commits.all fun c => c.length == 7) = true
  ∧ (extract_github_info text repo).commits.Nodup
  ∧ (extract_github_info text repo).prs.Nodup := by
  refine ⟨?_, List.nodup_dedup _, List.nodup_dedup _⟩
  rw [List.all_eq_true]
  intro c hc
  have hc' := List.mem_dedup.mp hc
  obtain ⟨g, hg, rfl⟩ := List.mem_map.mp hc'
  have hgf := (List.mem_filter.mp hg).1
  obtain ⟨l', s, _, hm⟩ := mem_reFind (matchCommit repo) (matchCommit_suf repo) text g hgf
  have h7 : 7 ≤ g.length := (matchCommit_spec hm).2.1
  have hlen : (g.take 7).length = 7 := by
    rw [List.length_take]
    exact Nat.min_eq_left h7
  rw [beq_iff_eq]
  exact hlen

/-- Claim C6: when the text contains no commit URL and no pull-request
URL of the repository, extract_github_info returns the empty result:
both lists empty. -/
theorem extract_github_info_no_urls_empty (text repo : List Char)
    (h1 : hasCommitUrl repo text = false) (h2 : hasPrUrl repo text = false) :
    extract_github_info text repo = { commits := [], prs := [] } := by
  have h1' : hasUrl (commitUrlBase repo) commitTail text = false := h1
  have h2' : hasUrl (pullUrlBase repo) prTail text = false := h2
  have hc : findCommits repo text = [] := by
    apply reFind_nil_of_step_none
    intro l' hl'
    cases hm : matchCommit repo l' with
    | none => rfl
    | some p =>
      obtain ⟨l'', hsuf, hat⟩ := (matchCommit_spec hm).2.2
      have hfalse := hasUrl_all_false (commitUrlBase_ne_nil repo) h1' l'' (hsuf.trans hl')
      simp [hfalse] at hat
  have hp : findPrs repo text = [] := by
    apply reFind_nil_of_step_none
    intro l' hl'
    cases hm : matchPr repo l' with
    | none => rfl
    | some p =>
      obtain ⟨l'', hsuf, hat⟩ := (matchPr_spec hm).2
      have hfalse := hasUrl_all_false (pullUrlBase_ne_nil repo) h2' l'' (hsuf.trans hl')
      simp [hfalse] at hat
  rw [extract_github_info, hc, hp]
  rfl

/-- Claim C6, witness of the theorem on a concrete input. -/
theorem extract_github_info_no_urls_empty_witness :
    hasCommitUrl "apache/hive".data "no references in this text".data = false
  ∧ hasPrUrl "apache/hive".data "no references in this text".data = false
  ∧ extract_github_info "no references in this text".data "apache/hive".data
      = { commits := [], prs := [] } :=
  ⟨by decide, by decide,
    extract_github_info_no_urls_empty _ _ (by decide) (by decide)⟩
